import Mathlib

/-!
Verification of the rational-approximation core of `SampleNFW.ipynb`
(function `find_rational` and the evaluation expression `num(xx)/den(xx)`).

The numerical code is embedded over `ℚ` (exact arithmetic):

* `np.poly1d` stores coefficients highest-degree first and trims leading
  zeros on construction (empty input becomes the zero polynomial `[0]`);
  evaluation is Horner's loop `y = y*x + c`, embedded as `polyval`.
* `np.linalg.inv` fails on a singular matrix (`LinAlgError`) and otherwise
  returns the inverse; it is embedded as `npLinalgInv`, computing the
  inverse through the adjugate (over a field this is the matrix inverse).
* `find_rational xi fxi A B` builds the design matrix `phi`, the source
  vector `d = fxi ᵥ* phi`, the normal matrix `M = phiᵀ * phi`, solves
  `c = M⁻¹ *ᵥ d` and packages the two `poly1d`s exactly as the notebook:
  `num = poly1d(c[:A+1][::-1])`, `den = poly1d(append(c[A+1:][::-1], 1.0))`.

`find_rational_int` additionally embeds the Python semantics of the same
cell for arbitrary integer degree arguments (negative slice bounds,
`np.zeros` rejecting a negative dimension), which is needed to settle the
claims about negative degrees.
-/

/-- Horner evaluation loop of `np.polyval` (used by `poly1d.__call__`):
coefficients are listed highest degree first. -/
def polyval (l : List ℚ) (x : ℚ) : ℚ :=
  l.foldl (fun acc c => acc * x + c) 0

/-- Coefficient normalization performed by the `np.poly1d` constructor:
leading (front) zeros are trimmed, and an empty coefficient array is
replaced by `[0]`. -/
def poly1dCoeffs (l : List ℚ) : List ℚ :=
  let t := l.dropWhile (fun c => decide (c = 0))
  if t.isEmpty then [0] else t

/-- The pair `(num, den)` of `np.poly1d`s returned by `find_rational`,
each stored highest-degree-first as numpy does. -/
structure RationalFunction where
  num : List ℚ
  den : List ℚ

deriving instance DecidableEq for RationalFunction

/-- Errors raised by the numpy calls in the cell: `LinAlgError` from
`np.linalg.inv` on a singular matrix, and `ValueError` from `np.zeros`
on a negative dimension. -/
inductive NpError where
  | singularMatrix
  | valueError

deriving instance DecidableEq for NpError

/-- Embedding of `np.linalg.inv` over exact arithmetic: fails exactly on
singular matrices, otherwise returns the inverse (computed via the
adjugate, which over a field is the matrix inverse). -/
def npLinalgInv {m : ℕ} (M : Matrix (Fin m) (Fin m) ℚ) :
    Except NpError (Matrix (Fin m) (Fin m) ℚ) :=
  if M.det = 0 then .error .singularMatrix else .ok (M.det⁻¹ • M.adjugate)

/-- Entry formula of the design matrix, line
`phi[i,a] = xi[i]**a if a<=A else (-fxi[i]*xi[i]**(a-A))`. -/
def phiEntry (x y : ℚ) (A a : ℕ) : ℚ :=
  if a ≤ A then x ^ a else -y * x ^ (a - A)

/-- The design matrix `phi` of shape `(Ndata, Nbase)` with
`Nbase = A+B+1`. -/
def phiMat (n : ℕ) (xi fxi : Fin n → ℚ) (A B : ℕ) :
    Matrix (Fin n) (Fin (A + B + 1)) ℚ :=
  Matrix.of fun i a => phiEntry (xi i) (fxi i) A (a : ℕ)

/-- The source vector `d = np.dot(fxi, phi)`. -/
def sourceVec (n : ℕ) (xi fxi : Fin n → ℚ) (A B : ℕ) : Fin (A + B + 1) → ℚ :=
  Matrix.vecMul fxi (phiMat n xi fxi A B)

/-- The normal matrix `M = np.dot(phi.T, phi)`. -/
def normalMat (n : ℕ) (xi fxi : Fin n → ℚ) (A B : ℕ) :
    Matrix (Fin (A + B + 1)) (Fin (A + B + 1)) ℚ :=
  (phiMat n xi fxi A B).transpose * phiMat n xi fxi A B

/-- Packaging of the solved coefficient vector `c` into the returned pair:
`num = np.poly1d(c[:A+1][::-1])` and
`den = np.poly1d(np.append(c[A+1:][::-1], 1.0))`. -/
def mkRatFun (A B : ℕ) (c : Fin (A + B + 1) → ℚ) : RationalFunction :=
  let clist := (List.finRange (A + B + 1)).map c
  { num := poly1dCoeffs ((clist.take (A + 1)).reverse)
    den := poly1dCoeffs ((clist.drop (A + 1)).reverse ++ [1]) }

/-- Embedding of the notebook function `find_rational(xi, fxi, A, B)` for
the intended non-negative degrees. -/
def find_rational (n : ℕ) (xi fxi : Fin n → ℚ) (A B : ℕ) :
    Except NpError RationalFunction :=
  match npLinalgInv (normalMat n xi fxi A B) with
  | .error e => .error e
  | .ok Minv => .ok (mkRatFun A B (Matrix.mulVec Minv (sourceVec n xi fxi A B)))

/-- Embedding of the evaluation expression `num(xx)/den(xx)` used by the
notebook on the result of `find_rational`; the division is numpy float
division, which never raises (here: total field division on `ℚ`). -/
def evaluate (fn : RationalFunction) (x : ℚ) : ℚ :=
  polyval fn.num x / polyval fn.den x

/-- Python slice bound normalization: a negative bound counts from the
end, and bounds are clamped to `[0, len]`. -/
def pyBound (len : ℕ) (j : ℤ) : ℕ :=
  if j < 0 then (len + j).toNat else min j.toNat len

/-- Python slice `l[:j]`. -/
def pySliceTo (l : List ℚ) (j : ℤ) : List ℚ :=
  l.take (pyBound l.length j)

/-- Python slice `l[j:]`. -/
def pySliceFrom (l : List ℚ) (j : ℤ) : List ℚ :=
  l.drop (pyBound l.length j)

/-- Design-matrix entry for an arbitrary integer degree argument `A`,
with Python integer comparison and exponentiation. -/
def phiEntryInt (x y : ℚ) (A : ℤ) (a : ℕ) : ℚ :=
  if (a : ℤ) ≤ A then x ^ a else -y * x ^ ((a : ℤ) - A).toNat

/-- Design matrix of the cell under Python integer-degree semantics
(only meaningful once `np.zeros` has accepted the shape, i.e. when
`A+B+1 ≥ 0`). -/
def phiMatInt (n : ℕ) (xi fxi : Fin n → ℚ) (A B : ℤ) :
    Matrix (Fin n) (Fin (A + B + 1).toNat) ℚ :=
  Matrix.of fun i a => phiEntryInt (xi i) (fxi i) A (a : ℕ)

/-- The source vector `d = np.dot(fxi, phi)` of the integer-degree
embedding. -/
def sourceVecInt (n : ℕ) (xi fxi : Fin n → ℚ) (A B : ℤ) :
    Fin (A + B + 1).toNat → ℚ :=
  Matrix.vecMul fxi (phiMatInt n xi fxi A B)

/-- The normal matrix `M = np.dot(phi.T, phi)` of the integer-degree
embedding. -/
def normalMatInt (n : ℕ) (xi fxi : Fin n → ℚ) (A B : ℤ) :
    Matrix (Fin (A + B + 1).toNat) (Fin (A + B + 1).toNat) ℚ :=
  (phiMatInt n xi fxi A B).transpose * phiMatInt n xi fxi A B

/-- Embedding of the same `find_rational` cell under Python semantics for
arbitrary integer degrees `A`, `B`: `np.zeros((Ndata, Nbase))` raises
`ValueError` when `Nbase = A+B+1` is negative; otherwise the loop
`for a in range(Nbase)` and the slices `c[:A+1]`, `c[A+1:]` follow the
Python negative-index rules. -/
def find_rational_int (n : ℕ) (xi fxi : Fin n → ℚ) (A B : ℤ) :
    Except NpError RationalFunction :=
  if A + B + 1 < 0 then .error .valueError
  else
    match npLinalgInv (normalMatInt n xi fxi A B) with
    | .error e => .error e
    | .ok Minv =>
      let clist := (List.finRange (A + B + 1).toNat).map
        (Matrix.mulVec Minv (sourceVecInt n xi fxi A B))
      .ok { num := poly1dCoeffs ((pySliceTo clist (A + 1)).reverse)
            den := poly1dCoeffs ((pySliceFrom clist (A + 1)).reverse ++ [1]) }

/-- Modelled from the spec: the `evaluate` contract of §4.1, which demands
a `DivisionByZeroError` signal when the fitted denominator vanishes at the
query point (the notebook itself has no such check). -/
inductive EvalError where
  | divisionByZero

deriving instance DecidableEq for EvalError

/-- Modelled from the spec: `evaluate(fn, x)` as specified, signalling
`DivisionByZeroError` when `D(x) = 0` and otherwise returning `N(x)/D(x)`. -/
def evaluateSpec (fn : RationalFunction) (x : ℚ) : Except EvalError ℚ :=
  if polyval fn.den x = 0 then .error .divisionByZero
  else .ok (polyval fn.num x / polyval fn.den x)

/-- Numerator-side polynomial determined by a coefficient vector `c`:
`∑_{a ≤ A} c_a x^a`. -/
def polyA (A B : ℕ) (c : Fin (A + B + 1) → ℚ) (x : ℚ) : ℚ :=
  ∑ a : Fin (A + 1), c (Fin.castLE (by omega) a) * x ^ (a : ℕ)

/-- Denominator-side polynomial (without its fixed constant term 1)
determined by a coefficient vector `c`: `∑_{1 ≤ k ≤ B} c_{A+k} x^k`. -/
def polyB (A B : ℕ) (c : Fin (A + B + 1) → ℚ) (x : ℚ) : ℚ :=
  ∑ k : Fin B, c ⟨A + 1 + (k : ℕ), by omega⟩ * x ^ ((k : ℕ) + 1)

/-- Coefficient `j` of the solved vector, as the list built by
`mkRatFun` stores it (`0` out of range). -/
def coeffAt (A B : ℕ) (c : Fin (A + B + 1) → ℚ) (j : ℕ) : ℚ :=
  ((List.finRange (A + B + 1)).map c).getD j 0

/-- Value of the true numerator polynomial with coefficients `nc`
(lowest degree first). -/
def Nval (A : ℕ) (nc : Fin (A + 1) → ℚ) (x : ℚ) : ℚ :=
  ∑ a : Fin (A + 1), nc a * x ^ (a : ℕ)

/-- Value of a true denominator polynomial with constant coefficient 1
and higher coefficients `dc` (coefficient of `x^(k+1)` is `dc k`). -/
def Dval (B : ℕ) (dc : Fin B → ℚ) (x : ℚ) : ℚ :=
  1 + ∑ k : Fin B, dc k * x ^ ((k : ℕ) + 1)

/-- Stacking of true numerator and denominator coefficients into the
unknown vector of the linear system, in the layout `find_rational`
uses. -/
def stackCoeffs (A B : ℕ) (nc : Fin (A + 1) → ℚ) (dc : Fin B → ℚ) :
    Fin (A + B + 1) → ℚ :=
  fun a => if h : (a : ℕ) ≤ A then nc ⟨a, by omega⟩
    else dc ⟨(a : ℕ) - (A + 1), by omega⟩

/-- Horner evaluation of a one-element extension: the appended entry is
the new constant term. -/
theorem polyval_append_single (l : List ℚ) (c x : ℚ) :
    polyval (l ++ [c]) x = polyval l x * x + c := by
  simp [polyval, List.foldl_append]

/-- A leading zero coefficient does not change the Horner value. -/
theorem polyval_cons_zero (t : List ℚ) (x : ℚ) :
    polyval (0 :: t) x = polyval t x := by
  simp [polyval]

/-- Trimming leading zeros (as the `poly1d` constructor does) preserves
the Horner value. -/
theorem polyval_dropWhile_zero (l : List ℚ) (x : ℚ) :
    polyval (l.dropWhile (fun c => decide (c = 0))) x = polyval l x := by
  induction l with
  | nil => rfl
  | cons c t ih =>
    by_cases hc : c = 0
    · subst hc
      simpa [List.dropWhile_cons, polyval_cons_zero] using ih
    · simp [List.dropWhile_cons, hc]

/-- The `poly1d` coefficient normalization preserves the Horner value. -/
theorem polyval_poly1dCoeffs (l : List ℚ) (x : ℚ) :
    polyval (poly1dCoeffs l) x = polyval l x := by
  unfold poly1dCoeffs
  by_cases he : (l.dropWhile (fun c => decide (c = 0))).isEmpty
  · rw [← polyval_dropWhile_zero l x, List.isEmpty_iff.mp he]
    simp [polyval]
  · simpa [he] using polyval_dropWhile_zero l x

/-- Trimming a list that ends in a nonzero entry keeps that last entry. -/
theorem dropWhile_append_single (l : List ℚ) {c : ℚ} (hc : ¬c = 0) :
    ∃ t, (l ++ [c]).dropWhile (fun c => decide (c = 0)) = t ++ [c] := by
  induction l with
  | nil => exact ⟨[], by simp [List.dropWhile, hc]⟩
  | cons a l ih =>
    by_cases ha : a = 0
    · obtain ⟨t, ht⟩ := ih
      exact ⟨t, by simp [List.dropWhile_cons, ha, ht]⟩
    · exact ⟨a :: l, by simp [List.dropWhile_cons, ha]⟩

/-- The `poly1d` constructor keeps a nonzero constant term in last
position. -/
theorem poly1dCoeffs_append_single (l : List ℚ) {c : ℚ} (hc : c ≠ 0) :
    ∃ t, poly1dCoeffs (l ++ [c]) = t ++ [c] := by
  obtain ⟨t, ht⟩ := dropWhile_append_single l hc
  refine ⟨t, ?_⟩
  unfold poly1dCoeffs
  rw [ht]
  cases t <;> simp

/-- Horner value at 0 of a list ending in `c` is `c`. -/
theorem polyval_append_single_zero (t : List ℚ) (c : ℚ) :
    polyval (t ++ [c]) 0 = c := by
  rw [polyval_append_single]; ring

/-- Horner evaluation of a reversed (lowest-degree-first) list is the
coefficient-weighted power sum. -/
theorem polyval_reverse (l : List ℚ) (x : ℚ) :
    polyval l.reverse x = ∑ j ∈ Finset.range l.length, l.getD j 0 * x ^ j := by
  induction l with
  | nil => simp [polyval]
  | cons c t ih =>
    rw [List.reverse_cons, polyval_append_single, ih, List.length_cons,
      Finset.sum_range_succ']
    simp only [List.getD_cons_succ, List.getD_cons_zero, pow_zero, mul_one,
      Finset.sum_mul]
    congr 1
    refine Finset.sum_congr rfl fun j _ => ?_
    ring

theorem coeffAt_lt {A B j : ℕ} (c : Fin (A + B + 1) → ℚ) (h : j < A + B + 1) :
    coeffAt A B c j = c ⟨j, h⟩ := by
  unfold coeffAt
  have h2 : j < (List.finRange (A + B + 1)).length := by simpa using h
  rw [List.getD_eq_getElem?_getD, List.getElem?_map, List.getElem?_eq_getElem h2,
    List.getElem_finRange]
  rfl

/-- The numerator-side polynomial as a range sum over `coeffAt`. -/
theorem polyA_eq_range (A B : ℕ) (c : Fin (A + B + 1) → ℚ) (x : ℚ) :
    polyA A B c x = ∑ j ∈ Finset.range (A + 1), coeffAt A B c j * x ^ j := by
  unfold polyA
  rw [← Fin.sum_univ_eq_sum_range (fun j => coeffAt A B c j * x ^ j) (A + 1)]
  refine Finset.sum_congr rfl fun a _ => ?_
  rw [coeffAt_lt c (by omega : (a : ℕ) < A + B + 1)]
  rfl

/-- The denominator-side polynomial as a range sum over `coeffAt`. -/
theorem polyB_eq_range (A B : ℕ) (c : Fin (A + B + 1) → ℚ) (x : ℚ) :
    polyB A B c x
      = ∑ j ∈ Finset.range B, coeffAt A B c (A + 1 + j) * x ^ (j + 1) := by
  unfold polyB
  rw [← Fin.sum_univ_eq_sum_range (fun j => coeffAt A B c (A + 1 + j) * x ^ (j + 1)) B]
  refine Finset.sum_congr rfl fun k _ => ?_
  rw [coeffAt_lt c (by omega : A + 1 + (k : ℕ) < A + B + 1)]

/-- Horner evaluation of the numerator list built by `mkRatFun` is the
numerator-side polynomial of the coefficient vector. -/
theorem mkRatFun_num_polyval (A B : ℕ) (c : Fin (A + B + 1) → ℚ) (x : ℚ) :
    polyval (mkRatFun A B c).num x = polyA A B c x := by
  show polyval (poly1dCoeffs ((((List.finRange (A + B + 1)).map c).take (A + 1)).reverse)) x = _
  rw [polyval_poly1dCoeffs, polyval_reverse, polyA_eq_range]
  have hlen : ((List.finRange (A + B + 1)).map c).length = A + B + 1 := by simp
  have hlen2 : (((List.finRange (A + B + 1)).map c).take (A + 1)).length = A + 1 := by
    rw [List.length_take, hlen]; omega
  rw [hlen2]
  refine Finset.sum_congr rfl fun j hj => ?_
  have hj2 : j < A + 1 := Finset.mem_range.mp hj
  rw [List.getD_eq_getElem?_getD, List.getElem?_take, if_pos hj2,
    ← List.getD_eq_getElem?_getD]
  rfl

/-- Horner evaluation of the denominator list built by `mkRatFun` is one
plus the denominator-side polynomial of the coefficient vector. -/
theorem mkRatFun_den_polyval (A B : ℕ) (c : Fin (A + B + 1) → ℚ) (x : ℚ) :
    polyval (mkRatFun A B c).den x = 1 + polyB A B c x := by
  show polyval (poly1dCoeffs ((((List.finRange (A + B + 1)).map c).drop (A + 1)).reverse ++ [1])) x = _
  rw [polyval_poly1dCoeffs, polyval_append_single, polyval_reverse, polyB_eq_range]
  have hlen : ((List.finRange (A + B + 1)).map c).length = A + B + 1 := by simp
  have hlen2 : (((List.finRange (A + B + 1)).map c).drop (A + 1)).length = B := by
    rw [List.length_drop, hlen]; omega
  rw [hlen2, Finset.sum_mul]
  have key : ∀ j ∈ Finset.range B,
      (((List.finRange (A + B + 1)).map c).drop (A + 1)).getD j 0 * x ^ j * x
        = coeffAt A B c (A + 1 + j) * x ^ (j + 1) := by
    intro j _
    rw [List.getD_eq_getElem?_getD, List.getElem?_drop, ← List.getD_eq_getElem?_getD]
    show coeffAt A B c (A + 1 + j) * x ^ j * x = _
    ring
  rw [Finset.sum_congr rfl key]
  ring

/-- Row formula of the design matrix applied to a coefficient vector:
row `i` evaluates to `N_c(x_i) - y_i * (D_c(x_i) - 1)`, the linearized
residual basis of the fit. -/
theorem phiMat_mulVec (n : ℕ) (xi fxi : Fin n → ℚ) (A B : ℕ)
    (c : Fin (A + B + 1) → ℚ) (i : Fin n) :
    (phiMat n xi fxi A B).mulVec c i
      = polyA A B c (xi i) - fxi i * polyB A B c (xi i) := by
  have hsum : (phiMat n xi fxi A B).mulVec c i
      = ∑ a : Fin (A + B + 1), phiMat n xi fxi A B i a * c a := by
    simp [Matrix.mulVec, Matrix.dotProduct]
  have step1 : ∑ a : Fin (A + B + 1), phiMat n xi fxi A B i a * c a
      = ∑ j ∈ Finset.range (A + B + 1), phiEntry (xi i) (fxi i) A j * coeffAt A B c j := by
    rw [← Fin.sum_univ_eq_sum_range
      (fun j => phiEntry (xi i) (fxi i) A j * coeffAt A B c j) (A + B + 1)]
    refine Finset.sum_congr rfl fun a _ => ?_
    show phiMat n xi fxi A B i a * c a
      = phiEntry (xi i) (fxi i) A (a : ℕ) * coeffAt A B c (a : ℕ)
    rw [coeffAt_lt c a.isLt]
    rfl
  rw [hsum, step1]
  have hr : Finset.range (A + B + 1) = Finset.range ((A + 1) + B) := by
    congr 1; omega
  rw [hr, Finset.sum_range_add]
  have h1 : ∀ j ∈ Finset.range (A + 1),
      phiEntry (xi i) (fxi i) A j * coeffAt A B c j = coeffAt A B c j * xi i ^ j := by
    intro j hj
    have : j ≤ A := by have := Finset.mem_range.mp hj; omega
    rw [phiEntry, if_pos this]; ring
  have h2 : ∀ j ∈ Finset.range B,
      phiEntry (xi i) (fxi i) A (A + 1 + j) * coeffAt A B c (A + 1 + j)
        = -(fxi i) * (coeffAt A B c (A + 1 + j) * xi i ^ (j + 1)) := by
    intro j _
    have hle : ¬(A + 1 + j ≤ A) := by omega
    have hexp : A + 1 + j - A = j + 1 := by omega
    rw [phiEntry, if_neg hle, hexp]; ring
  rw [Finset.sum_congr rfl h1, Finset.sum_congr rfl h2, ← Finset.mul_sum,
    polyA_eq_range, polyB_eq_range]
  ring

/-- When the normal matrix is nonsingular, the embedded `np.linalg.inv`
returns the Mathlib matrix inverse. -/
theorem npLinalgInv_ok {m : ℕ} (M : Matrix (Fin m) (Fin m) ℚ) (h : M.det ≠ 0) :
    npLinalgInv M = .ok M⁻¹ := by
  rw [npLinalgInv, if_neg h, Matrix.inv_def, Ring.inverse_eq_inv]

/-- A concrete right inverse certifies the result of the embedded
`np.linalg.inv`. -/
theorem npLinalgInv_right_inv {m : ℕ} {M N : Matrix (Fin m) (Fin m) ℚ}
    (h : M * N = 1) : npLinalgInv M = .ok N := by
  have hdet : M.det ≠ 0 := (Matrix.isUnit_det_of_right_inverse h).ne_zero
  rw [npLinalgInv_ok M hdet, Matrix.inv_eq_right_inv h]

/-- The embedded `np.linalg.inv` fails only with the singular-matrix
error. -/
theorem npLinalgInv_error {m : ℕ} {M : Matrix (Fin m) (Fin m) ℚ} {e : NpError}
    (h : npLinalgInv M = .error e) : e = .singularMatrix := by
  rw [npLinalgInv] at h
  by_cases hd : M.det = 0
  · rw [if_pos hd] at h
    injection h with h2
    exact h2.symm
  · rw [if_neg hd] at h
    exact absurd h (by simp)

/-- Success path of `find_rational`: with a nonsingular normal matrix the
returned pair packages the normal-equation solution `(ΦᵀΦ)⁻¹ Φᵀ y`,
where the target vector of the system is the ordinate vector `y`. -/
theorem find_rational_ok (n : ℕ) (xi fxi : Fin n → ℚ) (A B : ℕ)
    (hdet : (normalMat n xi fxi A B).det ≠ 0) :
    find_rational n xi fxi A B
      = .ok (mkRatFun A B ((normalMat n xi fxi A B)⁻¹.mulVec
          ((phiMat n xi fxi A B).transpose.mulVec fxi))) := by
  unfold find_rational
  rw [npLinalgInv_ok _ hdet]
  show Except.ok (mkRatFun A B ((normalMat n xi fxi A B)⁻¹.mulVec
      (sourceVec n xi fxi A B))) = _
  rw [Matrix.mulVec_transpose]
  rfl

/-- Error path of `find_rational`: a singular normal matrix makes the
embedded `np.linalg.inv` (and hence the fit) fail. -/
theorem find_rational_singular (n : ℕ) (xi fxi : Fin n → ℚ) (A B : ℕ)
    (hdet : (normalMat n xi fxi A B).det = 0) :
    find_rational n xi fxi A B = .error .singularMatrix := by
  unfold find_rational
  rw [npLinalgInv, if_pos hdet]

/-- If a coefficient vector reproduces the ordinates exactly through the
design matrix and the normal matrix is nonsingular, the fit returns
exactly that coefficient vector. -/
theorem find_rational_recover (n : ℕ) (xi fxi : Fin n → ℚ) (A B : ℕ)
    (hdet : (normalMat n xi fxi A B).det ≠ 0) (cstar : Fin (A + B + 1) → ℚ)
    (hfit : (phiMat n xi fxi A B).mulVec cstar = fxi) :
    find_rational n xi fxi A B = .ok (mkRatFun A B cstar) := by
  have key : (normalMat n xi fxi A B)⁻¹.mulVec
      ((phiMat n xi fxi A B).transpose.mulVec ((phiMat n xi fxi A B).mulVec cstar))
        = cstar := by
    rw [Matrix.mulVec_mulVec, Matrix.mulVec_mulVec, Matrix.mul_assoc,
      show (phiMat n xi fxi A B).transpose * phiMat n xi fxi A B
        = normalMat n xi fxi A B from rfl,
      Matrix.nonsing_inv_mul _ (isUnit_iff_ne_zero.mpr hdet), Matrix.one_mulVec]
  calc find_rational n xi fxi A B
      = .ok (mkRatFun A B ((normalMat n xi fxi A B)⁻¹.mulVec
          ((phiMat n xi fxi A B).transpose.mulVec fxi))) := find_rational_ok n xi fxi A B hdet
    _ = .ok (mkRatFun A B ((normalMat n xi fxi A B)⁻¹.mulVec
          ((phiMat n xi fxi A B).transpose.mulVec ((phiMat n xi fxi A B).mulVec cstar)))) := by
        rw [hfit]
    _ = .ok (mkRatFun A B cstar) := by rw [key]

theorem polyA_stack (A B : ℕ) (nc : Fin (A + 1) → ℚ) (dc : Fin B → ℚ) (x : ℚ) :
    polyA A B (stackCoeffs A B nc dc) x = Nval A nc x := by
  unfold polyA Nval
  refine Finset.sum_congr rfl fun a _ => ?_
  congr 1
  show stackCoeffs A B nc dc (Fin.castLE (by omega) a) = nc a
  unfold stackCoeffs
  rw [dif_pos (show ((Fin.castLE (by omega) a : Fin (A + B + 1)) : ℕ) ≤ A from by
    have := a.isLt; simp [Fin.castLE]; omega)]
  simp

theorem polyB_stack (A B : ℕ) (nc : Fin (A + 1) → ℚ) (dc : Fin B → ℚ) (x : ℚ) :
    polyB A B (stackCoeffs A B nc dc) x = Dval B dc x - 1 := by
  unfold polyB Dval
  rw [add_sub_cancel_left]
  refine Finset.sum_congr rfl fun k _ => ?_
  congr 1
  unfold stackCoeffs
  rw [dif_neg (show ¬((⟨A + 1 + (k : ℕ), by omega⟩ : Fin (A + B + 1)) : ℕ) ≤ A from by
    simp; omega)]
  congr 1
  ext
  simp

/-- Every successful fit result is a packaging of some coefficient
vector. -/
theorem find_rational_ok_shape (n : ℕ) (xi fxi : Fin n → ℚ) (A B : ℕ)
    (fn : RationalFunction) (hok : find_rational n xi fxi A B = .ok fn) :
    ∃ c, fn = mkRatFun A B c := by
  unfold find_rational at hok
  cases h : npLinalgInv (normalMat n xi fxi A B) with
  | error e =>
    rw [h] at hok
    exact absurd hok (by simp)
  | ok Minv =>
    rw [h] at hok
    injection hok with h2
    exact ⟨_, h2.symm⟩

/-- The denominator list built by `mkRatFun` always ends with the fixed
coefficient 1 (its constant term, since `poly1d` stores highest degree
first). -/
theorem mkRatFun_den_getLast (A B : ℕ) (c : Fin (A + B + 1) → ℚ) :
    (mkRatFun A B c).den.getLast? = some 1 := by
  obtain ⟨t, ht⟩ := poly1dCoeffs_append_single
    ((((List.finRange (A + B + 1)).map c).drop (A + 1)).reverse) (one_ne_zero (α := ℚ))
  show (poly1dCoeffs ((((List.finRange (A + B + 1)).map c).drop (A + 1)).reverse ++ [1])).getLast? = some 1
  rw [ht, List.getLast?_concat]

/-- The denominator polynomial built by `mkRatFun` evaluates to exactly 1
at `x = 0`. -/
theorem mkRatFun_den_at_zero (A B : ℕ) (c : Fin (A + B + 1) → ℚ) :
    polyval (mkRatFun A B c).den 0 = 1 := by
  obtain ⟨t, ht⟩ := poly1dCoeffs_append_single
    ((((List.finRange (A + B + 1)).map c).drop (A + 1)).reverse) (one_ne_zero (α := ℚ))
  show polyval (poly1dCoeffs ((((List.finRange (A + B + 1)).map c).drop (A + 1)).reverse ++ [1])) 0 = 1
  rw [ht, polyval_append_single_zero]

/-- The denominator list built by `mkRatFun` is nonempty. -/
theorem mkRatFun_den_ne_nil (A B : ℕ) (c : Fin (A + B + 1) → ℚ) :
    (mkRatFun A B c).den ≠ [] := by
  obtain ⟨t, ht⟩ := poly1dCoeffs_append_single
    ((((List.finRange (A + B + 1)).map c).drop (A + 1)).reverse) (one_ne_zero (α := ℚ))
  show poly1dCoeffs ((((List.finRange (A + B + 1)).map c).drop (A + 1)).reverse ++ [1]) ≠ []
  rw [ht]
  simp

/-- C1 (amended): on every successful fit the denominator coefficient
list ends in the fixed coefficient 1 — i.e. in lowest-to-highest order it
reads `[1, d_1, …, d_B]`, the CONSTANT coefficient (not the leading one)
being fixed at 1 — and the right-hand side of the least-squares system is
`Φᵀ ⬝ y`, i.e. the target vector is the raw ordinate vector `y_i` (the
term of the fixed constant denominator coefficient moved to the
right-hand side), not `y_i·x_i^B`. -/
theorem fit_den_ends_in_one_and_target_is_y (n : ℕ) (xi fxi : Fin n → ℚ)
    (A B : ℕ) (fn : RationalFunction)
    (hok : find_rational n xi fxi A B = .ok fn) :
    fn.den.getLast? = some 1
      ∧ sourceVec n xi fxi A B = (phiMat n xi fxi A B).transpose.mulVec fxi := by
  obtain ⟨c, hc⟩ := find_rational_ok_shape n xi fxi A B fn hok
  refine ⟨hc ▸ mkRatFun_den_getLast A B c, ?_⟩
  rw [Matrix.mulVec_transpose]
  rfl

/-- C10: on every successful fit the returned denominator has constant
(degree-zero) coefficient exactly 1, so the fitted denominator satisfies
`D(0) = 1` regardless of the input data. -/
theorem fit_den_constant_coeff_one (n : ℕ) (xi fxi : Fin n → ℚ) (A B : ℕ)
    (fn : RationalFunction) (hok : find_rational n xi fxi A B = .ok fn) :
    fn.den ≠ [] ∧ polyval fn.den 0 = 1 := by
  obtain ⟨c, hc⟩ := find_rational_ok_shape n xi fxi A B fn hok
  exact ⟨hc ▸ mkRatFun_den_ne_nil A B c, hc ▸ mkRatFun_den_at_zero A B c⟩

/-- C6: the design matrix has shape `(n, A+B+1)` with column `a` holding
`x_i^a` for `a ≤ A` and `-y_i·x_i^(a-A)` for `A < a ≤ A+B`, and (when the
normal matrix is invertible) the fit returns the coefficient vector
`(ΦᵀΦ)⁻¹ Φᵀ ⬝ y` packaged by `mkRatFun`; the target vector of the system
is the ordinate vector `y`. -/
theorem fit_normal_equations (n : ℕ) (xi fxi : Fin n → ℚ) (A B : ℕ)
    (hdet : (normalMat n xi fxi A B).det ≠ 0) :
    find_rational n xi fxi A B
      = .ok (mkRatFun A B ((normalMat n xi fxi A B)⁻¹.mulVec
          ((phiMat n xi fxi A B).transpose.mulVec fxi)))
      ∧ ∀ (i : Fin n) (a : Fin (A + B + 1)),
          phiMat n xi fxi A B i a
            = if (a : ℕ) ≤ A then xi i ^ (a : ℕ)
              else -(fxi i) * xi i ^ ((a : ℕ) - A) :=
  ⟨find_rational_ok n xi fxi A B hdet, fun _ _ => rfl⟩

/-- C7: the fit is deterministic — two calls on pointwise-identical
sample tables and identical degrees return identical results. -/
theorem fit_deterministic (n A B : ℕ) (xi xi2 fxi fxi2 : Fin n → ℚ)
    (hx : ∀ i, xi i = xi2 i) (hy : ∀ i, fxi i = fxi2 i) :
    find_rational n xi fxi A B = find_rational n xi2 fxi2 A B := by
  rw [funext hx, funext hy]

/-- C3: with fewer sample points than unknowns (`n < A+B+1`), and more
generally whenever the normal matrix `ΦᵀΦ` is singular, the fit fails
with the singular-matrix error instead of returning a
`RationalFunction`. -/
theorem fit_singular_when_underdetermined (n : ℕ) (xi fxi : Fin n → ℚ)
    (A B : ℕ) :
    (n < A + B + 1 → find_rational n xi fxi A B = .error .singularMatrix)
      ∧ ((normalMat n xi fxi A B).det = 0
          → find_rational n xi fxi A B = .error .singularMatrix) := by
  refine ⟨?_, find_rational_singular n xi fxi A B⟩
  intro hn
  apply find_rational_singular
  by_contra hdet
  have hker : ∀ v : Fin (A + B + 1) → ℚ,
      (phiMat n xi fxi A B).mulVec v = 0 → v = 0 := by
    intro v hv
    have h1 : (normalMat n xi fxi A B).mulVec v = 0 := by
      show ((phiMat n xi fxi A B).transpose * phiMat n xi fxi A B).mulVec v = 0
      rw [← Matrix.mulVec_mulVec, hv, Matrix.mulVec_zero]
    have h2 : v = (normalMat n xi fxi A B)⁻¹.mulVec
        ((normalMat n xi fxi A B).mulVec v) := by
      rw [Matrix.mulVec_mulVec, Matrix.nonsing_inv_mul _ (isUnit_iff_ne_zero.mpr hdet),
        Matrix.one_mulVec]
    rw [h2, h1, Matrix.mulVec_zero]
  have hinj : Function.Injective (phiMat n xi fxi A B).mulVecLin := by
    refine (injective_iff_map_eq_zero _).mpr ?_
    intro v hv
    exact hker v (by rwa [Matrix.mulVecLin_apply] at hv)
  have hrank := LinearMap.finrank_le_finrank_of_injective hinj
  rw [Module.finrank_fintype_fun_eq_card, Module.finrank_fintype_fun_eq_card,
    Fintype.card_fin, Fintype.card_fin] at hrank
  omega

/-- C2 (amended): if the samples lie exactly on a true rational function
`N/D` with `deg N ≤ A`, `deg D ≤ B` and the CONSTANT denominator
coefficient normalized to 1 (`D(0) = 1`, the normalization the code
actually uses), and the normal matrix is nonsingular, then the fit
recovers `N` and `D` exactly, and `evaluate` reproduces every ordinate
`y_i` at sample points where `D(x_i) ≠ 0`. -/
theorem fit_recovers_exact (n A B : ℕ) (xi fxi : Fin n → ℚ)
    (nc : Fin (A + 1) → ℚ) (dc : Fin B → ℚ)
    (hdet : (normalMat n xi fxi A B).det ≠ 0)
    (hdata : ∀ i, fxi i * Dval B dc (xi i) = Nval A nc (xi i)) :
    find_rational n xi fxi A B = .ok (mkRatFun A B (stackCoeffs A B nc dc))
      ∧ (∀ x, polyval (mkRatFun A B (stackCoeffs A B nc dc)).num x = Nval A nc x)
      ∧ (∀ x, polyval (mkRatFun A B (stackCoeffs A B nc dc)).den x = Dval B dc x)
      ∧ ∀ i, Dval B dc (xi i) ≠ 0
          → evaluate (mkRatFun A B (stackCoeffs A B nc dc)) (xi i) = fxi i := by
  have hnum : ∀ x, polyval (mkRatFun A B (stackCoeffs A B nc dc)).num x = Nval A nc x := by
    intro x
    rw [mkRatFun_num_polyval, polyA_stack]
  have hden : ∀ x, polyval (mkRatFun A B (stackCoeffs A B nc dc)).den x = Dval B dc x := by
    intro x
    rw [mkRatFun_den_polyval, polyB_stack]
    ring
  have hfit : (phiMat n xi fxi A B).mulVec (stackCoeffs A B nc dc) = fxi := by
    funext i
    rw [phiMat_mulVec, polyA_stack, polyB_stack, ← hdata i]
    ring
  refine ⟨find_rational_recover n xi fxi A B hdet _ hfit, hnum, hden, ?_⟩
  intro i hD
  rw [evaluate, hnum, hden, ← hdata i, mul_div_assoc, div_self hD, mul_one]

/-- C8 (amended): with exactly `n = A+B+1` sample points, whenever the
fit succeeds (equivalently, the square system is non-singular) the fitted
rational function interpolates the table: `evaluate` reproduces each
tabulated `y_i` exactly at every sample point where the fitted
denominator does not vanish. -/
theorem fit_interpolates (A B : ℕ) (xi fxi : Fin (A + B + 1) → ℚ)
    (fn : RationalFunction)
    (hok : find_rational (A + B + 1) xi fxi A B = .ok fn)
    (i : Fin (A + B + 1)) (hden : polyval fn.den (xi i) ≠ 0) :
    evaluate fn (xi i) = fxi i := by
  have hdet : (normalMat (A + B + 1) xi fxi A B).det ≠ 0 := by
    intro h0
    rw [find_rational_singular _ _ _ _ _ h0] at hok
    exact absurd hok (by simp)
  have hfn : fn = mkRatFun A B ((normalMat (A + B + 1) xi fxi A B)⁻¹.mulVec
      ((phiMat (A + B + 1) xi fxi A B).transpose.mulVec fxi)) := by
    have h := find_rational_ok (A + B + 1) xi fxi A B hdet
    rw [hok] at h
    injection h
  have hdphi : (phiMat (A + B + 1) xi fxi A B).det ≠ 0 := by
    intro h
    apply hdet
    show ((phiMat (A + B + 1) xi fxi A B).transpose * phiMat (A + B + 1) xi fxi A B).det = 0
    rw [Matrix.det_mul, Matrix.det_transpose, h, mul_zero]
  have hdphiT : ((phiMat (A + B + 1) xi fxi A B).transpose).det ≠ 0 := by
    rwa [Matrix.det_transpose]
  have hc : (phiMat (A + B + 1) xi fxi A B).mulVec
      ((normalMat (A + B + 1) xi fxi A B)⁻¹.mulVec
        ((phiMat (A + B + 1) xi fxi A B).transpose.mulVec fxi)) = fxi := by
    have hMinv : (normalMat (A + B + 1) xi fxi A B)⁻¹
        = (phiMat (A + B + 1) xi fxi A B)⁻¹
            * ((phiMat (A + B + 1) xi fxi A B).transpose)⁻¹ := by
      show ((phiMat (A + B + 1) xi fxi A B).transpose * phiMat (A + B + 1) xi fxi A B)⁻¹ = _
      rw [Matrix.mul_inv_rev]
    rw [hMinv, Matrix.mulVec_mulVec, Matrix.mulVec_mulVec, ← Matrix.mul_assoc,
      Matrix.mul_nonsing_inv _ (isUnit_iff_ne_zero.mpr hdphi), Matrix.one_mul,
      Matrix.nonsing_inv_mul _ (isUnit_iff_ne_zero.mpr hdphiT), Matrix.one_mulVec]
  have hres := phiMat_mulVec (A + B + 1) xi fxi A B
    ((normalMat (A + B + 1) xi fxi A B)⁻¹.mulVec
      ((phiMat (A + B + 1) xi fxi A B).transpose.mulVec fxi)) i
  rw [hc] at hres
  set c := (normalMat (A + B + 1) xi fxi A B)⁻¹.mulVec
    ((phiMat (A + B + 1) xi fxi A B).transpose.mulVec fxi) with hcdef
  have hnum : polyval fn.num (xi i) = polyA A B c (xi i) := by
    rw [hfn]; exact mkRatFun_num_polyval A B c (xi i)
  have hdenv : polyval fn.den (xi i) = 1 + polyB A B c (xi i) := by
    rw [hfn]; exact mkRatFun_den_polyval A B c (xi i)
  have hval : polyA A B c (xi i) = fxi i * (1 + polyB A B c (xi i)) := by
    linarith [hres]
  rw [evaluate, hnum, hdenv, hval, mul_div_assoc, div_self (by rwa [hdenv] at hden),
    mul_one]

/-- C4 (amended): the notebook evaluation `num(xx)/den(xx)` performs no
zero-denominator check and never signals; wherever the fitted denominator
does not vanish it agrees with the spec's `evaluate` contract. -/
theorem evaluate_refines_spec_off_zero_set (fn : RationalFunction) (x : ℚ)
    (h : polyval fn.den x ≠ 0) :
    evaluateSpec fn x = .ok (evaluate fn x) := by
  rw [evaluateSpec, if_neg h]
  rfl

/-- C5 (amended): the code performs no degree validation and has no
`InvalidDegreeError`: with a negative total dimension (`A+B+1 < 0`) it
fails only because `np.zeros` rejects the negative shape (`ValueError`),
and in every other case the only possible failure is the singular-matrix
error from `np.linalg.inv`. -/
theorem fit_no_degree_validation :
    (∀ (n : ℕ) (xi fxi : Fin n → ℚ) (A B : ℤ), A + B + 1 < 0
        → find_rational_int n xi fxi A B = .error .valueError)
      ∧ ∀ (n : ℕ) (xi fxi : Fin n → ℚ) (A B : ℤ) (e : NpError),
          0 ≤ A + B + 1 → find_rational_int n xi fxi A B = .error e
            → e = .singularMatrix := by
  constructor
  · intro n xi fxi A B h
    unfold find_rational_int
    rw [if_pos h]
  · intro n xi fxi A B e h0 herr
    unfold find_rational_int at herr
    rw [if_neg (not_lt.mpr h0)] at herr
    cases hinv : npLinalgInv (normalMatInt n xi fxi A B) with
    | error e2 =>
      rw [hinv] at herr
      injection herr with h2
      rw [← h2]
      exact npLinalgInv_error hinv
    | ok Minv =>
      rw [hinv] at herr
      exact absurd herr (by simp)

/-- Concrete right inverse of the normal matrix for the sample table
`(0,1), (1,1/3)` with degrees `A=0`, `B=1` (data from `y = 1/(1+2x)`). -/
theorem fitEx1_normal :
    normalMat 2 ![0, 1] ![1, 1/3] 0 1 * !![1, 3; 3, 18] = 1 := by
  ext i j
  fin_cases i <;> fin_cases j <;>
    norm_num [normalMat, phiMat, phiEntry, Matrix.mul_apply, Fin.sum_univ_succ,
      Matrix.one_apply]

theorem fitEx1_det : (normalMat 2 ![0, 1] ![1, 1/3] 0 1).det ≠ 0 :=
  (Matrix.isUnit_det_of_right_inverse fitEx1_normal).ne_zero

/-- Concrete fit of the table `(0,1), (1,1/3)` with `A=0`, `B=1`: the
coefficients of `y = 1/(1+2x)` are recovered, and the returned
denominator list (highest degree first) is `[2, 1]`. -/
theorem fitEx1 : find_rational 2 ![0, 1] ![1, 1/3] 0 1 = .ok ⟨[1], [2, 1]⟩ := by
  unfold find_rational
  rw [npLinalgInv_right_inv fitEx1_normal]
  have hc : Matrix.mulVec !![1, 3; 3, 18] (sourceVec 2 ![0, 1] ![1, 1/3] 0 1)
      = ![1, 2] := by
    funext a
    fin_cases a <;>
      norm_num [sourceVec, phiMat, phiEntry, Matrix.mulVec, Matrix.vecMul,
        Matrix.dotProduct, Fin.sum_univ_succ]
  show Except.ok (mkRatFun 0 1
    (Matrix.mulVec !![1, 3; 3, 18] (sourceVec 2 ![0, 1] ![1, 1/3] 0 1))) = _
  rw [hc]
  rfl

/-- Concrete right inverse of the normal matrix for the parabola table
`(0,1), (1,2), (2,5), (3,10)` with degrees `A=2`, `B=0`. -/
theorem fitEx2_normal :
    normalMat 4 ![0, 1, 2, 3] ![1, 2, 5, 10] 2 0
        * !![19/20, -21/20, 1/4; -21/20, 49/20, -3/4; 1/4, -3/4, 1/4] = 1 := by
  ext i j
  fin_cases i <;> fin_cases j <;>
    norm_num [normalMat, phiMat, phiEntry, Matrix.mul_apply, Fin.sum_univ_succ,
      Matrix.one_apply, Fin.ext_iff]

/-- Concrete fit of the parabola table `y = x^2 + 1` with `A=2`, `B=0`. -/
theorem fitEx2 :
    find_rational 4 ![0, 1, 2, 3] ![1, 2, 5, 10] 2 0 = .ok ⟨[1, 0, 1], [1]⟩ := by
  unfold find_rational
  rw [npLinalgInv_right_inv fitEx2_normal]
  have hc : Matrix.mulVec !![19/20, -21/20, 1/4; -21/20, 49/20, -3/4; 1/4, -3/4, 1/4]
      (sourceVec 4 ![0, 1, 2, 3] ![1, 2, 5, 10] 2 0) = ![1, 0, 1] := by
    funext a
    fin_cases a <;>
      norm_num [sourceVec, phiMat, phiEntry, Matrix.mulVec, Matrix.vecMul,
        Matrix.dotProduct, Fin.sum_univ_succ]
  show Except.ok (mkRatFun 2 0
    (Matrix.mulVec !![19/20, -21/20, 1/4; -21/20, 49/20, -3/4; 1/4, -3/4, 1/4]
      (sourceVec 4 ![0, 1, 2, 3] ![1, 2, 5, 10] 2 0))) = _
  rw [hc]
  rfl

/-- Concrete right inverse of the normal matrix for the square table
`(1,5), (2,0)` with degrees `A=0`, `B=1`. -/
theorem fitEx3_normal :
    normalMat 2 ![1, 2] ![5, 0] 0 1 * !![1, 1/5; 1/5, 2/25] = 1 := by
  ext i j
  fin_cases i <;> fin_cases j <;>
    norm_num [normalMat, phiMat, phiEntry, Matrix.mul_apply, Fin.sum_univ_succ,
      Matrix.one_apply]

/-- Concrete fit of the square table `(1,5), (2,0)` with `A=0`, `B=1`:
the system is nonsingular and the fitted denominator `1 - x` vanishes at
the first sample point. -/
theorem fitEx3 : find_rational 2 ![1, 2] ![5, 0] 0 1 = .ok ⟨[0], [-1, 1]⟩ := by
  unfold find_rational
  rw [npLinalgInv_right_inv fitEx3_normal]
  have hc : Matrix.mulVec !![1, 1/5; 1/5, 2/25] (sourceVec 2 ![1, 2] ![5, 0] 0 1)
      = ![0, -1] := by
    funext a
    fin_cases a <;>
      norm_num [sourceVec, phiMat, phiEntry, Matrix.mulVec, Matrix.vecMul,
        Matrix.dotProduct, Fin.sum_univ_succ]
  show Except.ok (mkRatFun 0 1
    (Matrix.mulVec !![1, 1/5; 1/5, 2/25] (sourceVec 2 ![1, 2] ![5, 0] 0 1))) = _
  rw [hc]
  rfl

/-- The normal matrix of the table `(1,1), (2,1/2), (3,1/3)` (data from
`y = 1/x`) with `A=0`, `B=1` is the singular matrix `!![3,-3;-3,3]`. -/
theorem fitEx4_M :
    normalMat 3 ![1, 2, 3] ![1, 1/2, 1/3] 0 1 = !![3, -3; -3, 3] := by
  ext i j
  fin_cases i <;> fin_cases j <;>
    norm_num [normalMat, phiMat, phiEntry, Matrix.mul_apply, Fin.sum_univ_succ]

/-- Fitting data drawn exactly from `y = 1/x` (a rational function whose
denominator has leading coefficient 1 but constant coefficient 0) fails
with the singular-matrix error. -/
theorem fitEx4 :
    find_rational 3 ![1, 2, 3] ![1, 1/2, 1/3] 0 1 = .error .singularMatrix := by
  apply find_rational_singular
  rw [fitEx4_M, Matrix.det_fin_two_of]
  norm_num

/-- The normal matrix of the integer-degree embedding at `A = -1`,
`B = 0` is the empty (0-by-0) matrix, its own inverse. -/
theorem fitEx5_normal : normalMatInt 2 ![1, 2] ![3, 4] (-1) 0 * 1 = 1 := by
  ext i j
  fin_cases i

/-- Concrete run of the cell with the negative degree `A = -1` (and
`B = 0`): the basis is empty, `np.linalg.inv` inverts the 0-by-0 matrix
without complaint, and a `RationalFunction` (zero numerator, unit
denominator) is returned — no error of any kind is raised. -/
theorem fitEx5 :
    find_rational_int 2 ![1, 2] ![3, 4] (-1) 0 = .ok ⟨[0], [1]⟩ := by
  unfold find_rational_int
  rw [if_neg (by norm_num), npLinalgInv_right_inv fitEx5_normal]
  rfl

/-- Concrete right inverse of the normal matrix for the square table
`(0,1), (1,2)` with degrees `A=1`, `B=0` (data from `y = x + 1`). -/
theorem fitEx6_normal :
    normalMat 2 ![0, 1] ![1, 2] 1 0 * !![1, -1; -1, 2] = 1 := by
  ext i j
  fin_cases i <;> fin_cases j <;>
    norm_num [normalMat, phiMat, phiEntry, Matrix.mul_apply, Fin.sum_univ_succ,
      Matrix.one_apply]

/-- Concrete fit of the exactly determined table `(0,1), (1,2)` with
`A=1`, `B=0`: the line `y = x + 1` is recovered. -/
theorem fitEx6 : find_rational 2 ![0, 1] ![1, 2] 1 0 = .ok ⟨[1, 1], [1]⟩ := by
  unfold find_rational
  rw [npLinalgInv_right_inv fitEx6_normal]
  have hc : Matrix.mulVec !![1, -1; -1, 2] (sourceVec 2 ![0, 1] ![1, 2] 1 0)
      = ![1, 1] := by
    funext a
    fin_cases a <;>
      norm_num [sourceVec, phiMat, phiEntry, Matrix.mulVec, Matrix.vecMul,
        Matrix.dotProduct, Fin.sum_univ_succ]
  show Except.ok (mkRatFun 1 0
    (Matrix.mulVec !![1, -1; -1, 2] (sourceVec 2 ![0, 1] ![1, 2] 1 0))) = _
  rw [hc]
  rfl

/-- C1 (counterexample): at the table `(0,1), (1,1/3)` with `A=0`, `B=1`
the fit returns denominator coefficient list `[2, 1]` (highest degree
first), whose leading (highest-degree) coefficient is 2, not 1; and the
right-hand-side source vector of the system is not `Φᵀ ⬝ (y_i·x_i^B)` as
the claim states. -/
theorem claim_C1_counterexample :
    find_rational 2 ![0, 1] ![1, 1/3] 0 1 = .ok ⟨[1], [2, 1]⟩
      ∧ ([2, 1] : List ℚ).headI ≠ 1
      ∧ sourceVec 2 ![0, 1] ![1, 1/3] 0 1
          ≠ (phiMat 2 ![0, 1] ![1, 1/3] 0 1).transpose.mulVec
              (fun i => (![1, 1/3] : Fin 2 → ℚ) i * (![0, 1] : Fin 2 → ℚ) i ^ 1) := by
  refine ⟨fitEx1, by norm_num, fun h => ?_⟩
  have h0 := congrFun h 0
  norm_num [sourceVec, phiMat, phiEntry, Matrix.mulVec, Matrix.vecMul,
    Matrix.dotProduct, Matrix.transpose_apply, Fin.sum_univ_succ] at h0

/-- C1 (witness for the amended claim): instantiation at the fit of the
table `(0,1), (1,1/3)` with `A=0`, `B=1`. -/
theorem claim_C1_witness :
    (RationalFunction.mk [1] [2, 1]).den.getLast? = some 1
      ∧ sourceVec 2 ![0, 1] ![1, 1/3] 0 1
          = (phiMat 2 ![0, 1] ![1, 1/3] 0 1).transpose.mulVec ![1, 1/3] :=
  fit_den_ends_in_one_and_target_is_y 2 ![0, 1] ![1, 1/3] 0 1 ⟨[1], [2, 1]⟩ fitEx1

/-- C2 (counterexample): the table `(1,1), (2,1/2), (3,1/3)` lies exactly
on the rational function `1/x`, whose denominator has degree ≤ 1 and
leading coefficient 1, with `n = 3 ≥ A+B+1 = 2`, yet the fit raises the
singular-system error instead of recovering the coefficients. -/
theorem claim_C2_counterexample :
    (![1, 1/2, 1/3] : Fin 3 → ℚ) 0 * (![1, 2, 3] : Fin 3 → ℚ) 0 = 1
      ∧ (![1, 1/2, 1/3] : Fin 3 → ℚ) 1 * (![1, 2, 3] : Fin 3 → ℚ) 1 = 1
      ∧ (![1, 1/2, 1/3] : Fin 3 → ℚ) 2 * (![1, 2, 3] : Fin 3 → ℚ) 2 = 1
      ∧ find_rational 3 ![1, 2, 3] ![1, 1/2, 1/3] 0 1 = .error .singularMatrix :=
  ⟨by norm_num, by norm_num, by norm_num, fitEx4⟩

/-- C2 (witness for the amended claim): the table `(0,1), (1,1/3)` lies
on `1/(1+2x)` (denominator constant coefficient 1) and the fit recovers
numerator `1` and denominator `1 + 2x` exactly. -/
theorem claim_C2_witness :
    find_rational 2 ![0, 1] ![1, 1/3] 0 1
        = .ok (mkRatFun 0 1 (stackCoeffs 0 1 ![1] ![2]))
      ∧ (∀ x, polyval (mkRatFun 0 1 (stackCoeffs 0 1 ![1] ![2])).num x = Nval 0 ![1] x)
      ∧ (∀ x, polyval (mkRatFun 0 1 (stackCoeffs 0 1 ![1] ![2])).den x = Dval 1 ![2] x)
      ∧ ∀ i, Dval 1 ![2] ((![0, 1] : Fin 2 → ℚ) i) ≠ 0
          → evaluate (mkRatFun 0 1 (stackCoeffs 0 1 ![1] ![2])) ((![0, 1] : Fin 2 → ℚ) i)
              = (![1, 1/3] : Fin 2 → ℚ) i :=
  fit_recovers_exact 2 0 1 ![0, 1] ![1, 1/3] ![1] ![2] fitEx1_det (by
    intro i
    fin_cases i <;> norm_num [Dval, Nval, Fin.sum_univ_succ])

/-- C3 (witness): a single sample point with `A+B+1 = 2` unknowns makes
the fit fail with the singular-system error. -/
theorem claim_C3_witness :
    find_rational 1 ![2] ![3] 0 1 = .error .singularMatrix :=
  (fit_singular_when_underdetermined 1 ![2] ![3] 0 1).1 (by norm_num)

/-- C4 (counterexample): at a query point where the fitted denominator
`x - 1` vanishes, the spec-modelled `evaluate` signals
`DivisionByZeroError`, but the code's evaluation returns a substituted
value (numpy float division by zero does not raise; in the exact
embedding the total field division returns 0). -/
theorem claim_C4_counterexample :
    evaluateSpec ⟨[1], [1, -1]⟩ 1 = .error .divisionByZero
      ∧ evaluate ⟨[1], [1, -1]⟩ 1 = 0 := by
  constructor
  · norm_num [evaluateSpec, polyval]
  · norm_num [evaluate, polyval]

/-- C4 (witness for the amended claim): instantiation at a denominator
that does not vanish at the query point. -/
theorem claim_C4_witness :
    evaluateSpec ⟨[1], [1]⟩ 0 = .ok (evaluate ⟨[1], [1]⟩ 0) :=
  evaluate_refines_spec_off_zero_set ⟨[1], [1]⟩ 0 (by norm_num [polyval])

/-- C5 (counterexample): called with the negative degree `A = -1` the
cell does not signal any degree error: it returns a `RationalFunction`
(zero numerator, unit denominator). -/
theorem claim_C5_counterexample :
    (-1 : ℤ) < 0
      ∧ find_rational_int 2 ![1, 2] ![3, 4] (-1) 0 = .ok ⟨[0], [1]⟩ :=
  ⟨by norm_num, fitEx5⟩

/-- C5 (witness for the amended claim): with `A+B+1 < 0` the failure is
numpy's `ValueError` for a negative array dimension, not a degree
validation. -/
theorem claim_C5_witness :
    find_rational_int 1 ![1] ![1] (-3) 0 = .error .valueError :=
  fit_no_degree_validation.1 1 ![1] ![1] (-3) 0 (by norm_num)

/-- C6 (witness): instantiation of the normal-equation characterization
at the table `(0,1), (1,1/3)` with `A=0`, `B=1`. -/
theorem claim_C6_witness :
    find_rational 2 ![0, 1] ![1, 1/3] 0 1
        = .ok (mkRatFun 0 1 ((normalMat 2 ![0, 1] ![1, 1/3] 0 1)⁻¹.mulVec
            ((phiMat 2 ![0, 1] ![1, 1/3] 0 1).transpose.mulVec ![1, 1/3])))
      ∧ ∀ (i : Fin 2) (a : Fin (0 + 1 + 1)),
          phiMat 2 ![0, 1] ![1, 1/3] 0 1 i a
            = if (a : ℕ) ≤ 0 then (![0, 1] : Fin 2 → ℚ) i ^ (a : ℕ)
              else -((![1, 1/3] : Fin 2 → ℚ) i) * (![0, 1] : Fin 2 → ℚ) i ^ ((a : ℕ) - 0) :=
  fit_normal_equations 2 ![0, 1] ![1, 1/3] 0 1 fitEx1_det

/-- C7 (witness): instantiation of determinism at a concrete table. -/
theorem claim_C7_witness :
    find_rational 1 ![5] ![7] 0 0 = find_rational 1 ![5] ![7] 0 0 :=
  fit_deterministic 1 0 0 ![5] ![5] ![7] ![7] (fun _ => rfl) (fun _ => rfl)

/-- C8 (counterexample): the exactly determined table `(1,5), (2,0)` with
`A=0`, `B=1` yields a nonsingular system and a successful fit, yet the
fitted function does not reproduce the first table value: the fitted
denominator `1 - x` vanishes at `x = 1`, where the code's evaluation
returns a substituted value (0 in the exact embedding, NaN in floats)
instead of the tabulated 5. -/
theorem claim_C8_counterexample :
    find_rational 2 ![1, 2] ![5, 0] 0 1 = .ok ⟨[0], [-1, 1]⟩
      ∧ evaluate ⟨[0], [-1, 1]⟩ ((![1, 2] : Fin 2 → ℚ) 0) = 0
      ∧ (![5, 0] : Fin 2 → ℚ) 0 = 5
      ∧ (0 : ℚ) ≠ 5 := by
  refine ⟨fitEx3, ?_, by norm_num, by norm_num⟩
  norm_num [evaluate, polyval]

/-- C8 (witness for the amended claim): the exactly determined fit of
`(0,1), (1,2)` with `A=1`, `B=0` interpolates the first table value. -/
theorem claim_C8_witness :
    evaluate ⟨[1, 1], [1]⟩ ((![0, 1] : Fin 2 → ℚ) 0) = (![1, 2] : Fin 2 → ℚ) 0 :=
  fit_interpolates 1 0 ![0, 1] ![1, 2] ⟨[1, 1], [1]⟩ fitEx6 0 (by norm_num [polyval])

/-- C9: on the table `(0,1), (1,2), (2,5), (3,10)` with `A=2`, `B=0` the
fit returns numerator coefficients `[1, 0, 1]` (equal to `x^2 + 1`; the
list is palindromic, so it reads the same lowest-to-highest) and
denominator `[1]`, and evaluation at `x = 4` returns exactly 17. -/
theorem claim_C9_concrete :
    find_rational 4 ![0, 1, 2, 3] ![1, 2, 5, 10] 2 0 = .ok ⟨[1, 0, 1], [1]⟩
      ∧ evaluate ⟨[1, 0, 1], [1]⟩ 4 = 17 :=
  ⟨fitEx2, by norm_num [evaluate, polyval]⟩

/-- C10 (witness): instantiation at the fit of the table `(0,1), (1,1/3)`
with `A=0`, `B=1`: the denominator `[2, 1]` has constant coefficient 1
and evaluates to 1 at zero. -/
theorem claim_C10_witness :
    (RationalFunction.mk [1] [2, 1]).den ≠ []
      ∧ polyval (RationalFunction.mk [1] [2, 1]).den 0 = 1 :=
  fit_den_constant_coeff_one 2 ![0, 1] ![1, 1/3] 0 1 ⟨[1], [2, 1]⟩ fitEx1
